import Mathlib

/-!
Verification of the box-blur parallel stencil engine.

The development shallowly embeds the C sources of the repository:

* `apply_box_blur_color`  — src/box-blur/src/serial/serial_c_box_blur_proposal_IT23400986.c
* `apply_box_blur_openmp` — the OpenMP backend (identical loop nest, pragma aside)
* `apply_box_blur_mpi`    — src/box-blur/src/mpi/mpi_box_blur.c (row-range worker)
* `box_blur_kernel`       — the OpenCL kernel string in src/box-blur/src/opencl/opencl_box_blur.c
* `box_blur_kernel_cuda`  — the CUDA __global__ kernel (cuda_box_blur.cu)
* `rows_per_process`, `start_row`, `end_row`, `recv_count`, `displ` — the MPI
  partition and gather bookkeeping in mpi_box_blur.c's main.

Pixel sample buffers are modelled as functions `Nat → Nat` (flat byte index to
sample value); produced output buffers are `List Nat` in the exact byte order
the C code writes them.  The narrowing store through `unsigned char` is
modelled by an explicit `% 256`.  Machine-`int` arithmetic is modelled on
`Nat`/`Int`; the C programs keep all intermediate values far below `2^31`
for the kernel sizes they use, so no wrap-around is modelled.
-/

namespace BoxBlur

/-- Flat source index computed by every backend:
`(ny * width + nx) * channels + (channels == 1 ? 0 : c)`. -/
def srcIdx (width channels nx ny c : Nat) : Nat :=
  (ny * width + nx) * channels + (if channels = 1 then 0 else c)

/-- The innermost loop (`for n = -k_offset .. k_offset`) at window row offset
`m = mi - kOff`: accumulate `sum` and `count`, skipping out-of-bounds
neighbours.  The loop variable `ni` ranges over `0 .. 2*kOff` and stands for
`n = ni - kOff`. -/
def innerFold (input : Nat → Nat) (width height channels kOff x y c mi : Nat)
    (acc : Nat × Nat) : Nat × Nat :=
  (List.range (2 * kOff + 1)).foldl (fun acc2 (ni : Nat) =>
    let nx : Int := (x : Int) + (ni : Int) - (kOff : Int)
    let ny : Int := (y : Int) + (mi : Int) - (kOff : Int)
    if 0 ≤ nx ∧ nx < (width : Int) ∧ 0 ≤ ny ∧ ny < (height : Int) then
      (acc2.1 + input (srcIdx width channels nx.toNat ny.toNat c),
       acc2.2 + 1)
    else acc2) acc

/-- The two innermost loops (`for m ... for n ...`) shared verbatim by all five
backends: accumulate `sum` and `count` over the window.  `kOff` is
`kernel_size / 2`; the outer loop variable `mi` ranges over `0 .. 2*kOff` and
stands for `m = mi - kOff`. -/
def windowFold (input : Nat → Nat) (width height channels kOff x y c : Nat) :
    Nat × Nat :=
  (List.range (2 * kOff + 1)).foldl
    (fun acc mi => innerFold input width height channels kOff x y c mi acc)
    (0, 0)

/-- One output byte: `(unsigned char)(sum / count)`. -/
def blurByte (input : Nat → Nat) (width height channels kOff x y c : Nat) :
    Nat :=
  ((windowFold input width height channels kOff x y c).1 /
    (windowFold input width height channels kOff x y c).2) % 256

/-- Serial backend `apply_box_blur_color`: the full `y`/`x`/`c` loop nest,
writing `output_rgb[(y*width+x)*3+c]` in row-major order. -/
def apply_box_blur_color (input : Nat → Nat)
    (width height channels kernel_size : Nat) : List Nat :=
  (List.range height).flatMap fun y =>
    (List.range width).flatMap fun x =>
      (List.range 3).map fun c =>
        blurByte input width height channels (kernel_size / 2) x y c

/-- OpenMP backend `apply_box_blur_openmp`: the identical loop nest (the
`#pragma omp parallel for collapse(2)` only distributes disjoint writes). -/
def apply_box_blur_openmp (input : Nat → Nat)
    (width height channels kernel_size : Nat) : List Nat :=
  (List.range height).flatMap fun y =>
    (List.range width).flatMap fun x =>
      (List.range 3).map fun c =>
        blurByte input width height channels (kernel_size / 2) x y c

/-- MPI worker `apply_box_blur_mpi`: rows `start_row ≤ y < end_row` only, the
local buffer indexed by `local_y = y - start_row` (i.e. rows concatenated in
order). -/
def apply_box_blur_mpi (input : Nat → Nat)
    (width height channels kernel_size srow erow : Nat) : List Nat :=
  (List.range' srow (erow - srow)).flatMap fun y =>
    (List.range width).flatMap fun x =>
      (List.range 3).map fun c =>
        blurByte input width height channels (kernel_size / 2) x y c

/-- OpenCL work-item `box_blur_kernel` at global id `(x, y)`: the list of
`(dst_idx, byte)` stores it performs.  The guard `if (x >= width || y >=
height) return;` yields no stores. -/
def box_blur_kernel (input : Nat → Nat)
    (width height channels kernel_size x y : Nat) : List (Nat × Nat) :=
  if width ≤ x ∨ height ≤ y then []
  else
    (List.range 3).map fun c =>
      ((y * width + x) * 3 + c,
       blurByte input width height channels (kernel_size / 2) x y c)

/-- CUDA thread `box_blur_kernel` at `(x, y)`: same stores, guarded by
`if (x < width && y < height)`. -/
def box_blur_kernel_cuda (input : Nat → Nat)
    (width height channels kernel_size x y : Nat) : List (Nat × Nat) :=
  if x < width ∧ y < height then
    (List.range 3).map fun c =>
      ((y * width + x) * 3 + c,
       blurByte input width height channels (kernel_size / 2) x y c)
  else []

/-- Replay a list of `(index, byte)` stores onto a buffer. -/
def applyWrites (init : List Nat) (ws : List (Nat × Nat)) : List Nat :=
  ws.foldl (fun buf w => buf.set w.1 w.2) init

/-- OpenCL backend `apply_box_blur_opencl`: a `width × height` global range of
work-items, each writing its own three output cells into the device output
buffer (writes are pairwise disjoint, so the enumeration order is
irrelevant). -/
def apply_box_blur_opencl (input : Nat → Nat)
    (width height channels kernel_size : Nat) : List Nat :=
  applyWrites (List.replicate (width * height * 3) 0)
    ((List.range height).flatMap fun y =>
      (List.range width).flatMap fun x =>
        box_blur_kernel input width height channels kernel_size x y)

/-- CUDA launcher `cuda_box_blur`: grid of `ceil(width/bd) × ceil(height/bd)`
blocks of `bd × bd` threads, i.e. `ceil(width/bd)*bd` columns of threads;
threads outside the image are masked off inside the kernel. -/
def cuda_box_blur (input : Nat → Nat)
    (width height channels kernel_size bd : Nat) : List Nat :=
  applyWrites (List.replicate (width * height * 3) 0)
    ((List.range ((height + bd - 1) / bd * bd)).flatMap fun y =>
      (List.range ((width + bd - 1) / bd * bd)).flatMap fun x =>
        box_blur_kernel_cuda input width height channels kernel_size x y)

/-- MPI partition: `rows_per_process = height / size`. -/
def rows_per_process (height size : Nat) : Nat := height / size

/-- MPI partition: `start_row = rank * rows_per_process`. -/
def start_row (height size rank : Nat) : Nat :=
  rank * rows_per_process height size

/-- MPI partition:
`end_row = (rank == size - 1) ? height : start_row + rows_per_process`. -/
def end_row (height size rank : Nat) : Nat :=
  if rank = size - 1 then height
  else start_row height size rank + rows_per_process height size

/-- Root's gather bookkeeping: `recv_counts[i] = (i_end - i_start) * width * 3`
recomputed from the same partition formula. -/
def recv_count (width height size i : Nat) : Nat :=
  (end_row height size i - start_row height size i) * width * 3

/-- Root's gather bookkeeping: `displs[i] = i_start * width * 3`. -/
def displ (width height size i : Nat) : Nat :=
  start_row height size i * width * 3

/-- The `MPI_Gatherv`: rank `i`'s partial placed at byte offset `displs[i]`;
since the displacements are the cumulative partial sizes this is exactly the
concatenation of the partials in rank order. -/
def gathered (input : Nat → Nat)
    (width height channels kernel_size size : Nat) : List Nat :=
  (List.range size).flatMap fun r =>
    apply_box_blur_mpi input width height channels kernel_size
      (start_row height size r) (end_row height size r)

/-- Memory as the C functions see it: the (conceptually read-only) input
buffer and the separately allocated output buffer. -/
structure Mem where
  input : List Nat
  output : List Nat

/-- Stateful form of the serial/OpenMP loop nest: every iteration reads the
input buffer of the current memory and stores one byte into the output
buffer (`output_rgb[dst_idx] = (unsigned char)(sum / count)`). -/
def apply_box_blur_color_st (s : Mem)
    (width height channels kernel_size : Nat) : Mem :=
  (List.range height).foldl (fun s1 y =>
    (List.range width).foldl (fun s2 x =>
      (List.range 3).foldl (fun s3 c =>
        Mem.mk s3.input (s3.output.set ((y * width + x) * 3 + c)
          (blurByte (fun i => s3.input.getD i 0) width height channels
            (kernel_size / 2) x y c))) s2) s1) s

/-- Stateful form of the MPI worker loop over rows
`start_row ≤ y < end_row`, writing at `((y - start_row)*width + x)*3 + c`. -/
def apply_box_blur_mpi_st (s : Mem)
    (width height channels kernel_size srow erow : Nat) : Mem :=
  (List.range' srow (erow - srow)).foldl (fun s1 y =>
    (List.range width).foldl (fun s2 x =>
      (List.range 3).foldl (fun s3 c =>
        Mem.mk s3.input (s3.output.set
          (((y - srow) * width + x) * 3 + c)
          (blurByte (fun i => s3.input.getD i 0) width height channels
            (kernel_size / 2) x y c))) s2) s1) s

/-! ## Spec-side characterisation of the stencil kernel (§4.1 of the spec) -/

/-- The set of valid (in-bounds) window offsets `(m, n)` with
`m, n ∈ [-radius, radius]` and `(x+n, y+m) ∈ [0,width) × [0,height)`,
following the spec's words. -/
def validNbrs (width height radius x y : Nat) : Finset (Int × Int) :=
  (Finset.Icc (-(radius : Int)) (radius : Int) ×ˢ
      Finset.Icc (-(radius : Int)) (radius : Int)).filter
    fun p => 0 ≤ (x : Int) + p.2 ∧ (x : Int) + p.2 < (width : Int) ∧
             0 ≤ (y : Int) + p.1 ∧ (y : Int) + p.1 < (height : Int)

/-- Spec-side numerator: the sum of the input samples at channel `c` over the
valid neighbours. -/
def specSum (input : Nat → Nat) (width height channels radius x y c : Nat) :
    Nat :=
  ∑ p ∈ validNbrs width height radius x y,
    input (srcIdx width channels ((x : Int) + p.2).toNat
      ((y : Int) + p.1).toNat c)

/-- Spec-side denominator: the number of valid neighbours. -/
def specCount (width height radius x y : Nat) : Nat :=
  (validNbrs width height radius x y).card

/-- Summand form of one window probe: the sample if the neighbour is
in-bounds, `0` otherwise. -/
def sTerm (input : Nat → Nat) (width height channels r x y c mi ni : Nat) :
    Nat :=
  if 0 ≤ (x : Int) + (ni : Int) - (r : Int) ∧
      (x : Int) + (ni : Int) - (r : Int) < (width : Int) ∧
      0 ≤ (y : Int) + (mi : Int) - (r : Int) ∧
      (y : Int) + (mi : Int) - (r : Int) < (height : Int) then
    input (srcIdx width channels ((x : Int) + (ni : Int) - (r : Int)).toNat
      ((y : Int) + (mi : Int) - (r : Int)).toNat c)
  else 0

/-- Count form of one window probe: `1` if the neighbour is in-bounds. -/
def cTerm (width height r x y mi ni : Nat) : Nat :=
  if 0 ≤ (x : Int) + (ni : Int) - (r : Int) ∧
      (x : Int) + (ni : Int) - (r : Int) < (width : Int) ∧
      0 ≤ (y : Int) + (mi : Int) - (r : Int) ∧
      (y : Int) + (mi : Int) - (r : Int) < (height : Int) then 1
  else 0

/-! ## Fold bookkeeping lemmas -/

/-- A fold over `List.range N` whose step adds `(sFn i, cFn i)` componentwise
computes the componentwise range sums. -/
theorem foldl_addPair (step : Nat × Nat → Nat → Nat × Nat)
    (sFn cFn : Nat → Nat)
    (hstep : ∀ acc i, step acc i = (acc.1 + sFn i, acc.2 + cFn i))
    (N : Nat) (a b : Nat) :
    (List.range N).foldl step (a, b) =
      (a + ∑ i ∈ Finset.range N, sFn i, b + ∑ i ∈ Finset.range N, cFn i) := by
  induction N with
  | zero => simp
  | succ n ih =>
    rw [List.range_succ, List.foldl_append]
    simp only [List.foldl_cons, List.foldl_nil, ih, hstep,
      Finset.sum_range_succ]
    exact Prod.ext (by dsimp; omega) (by dsimp; omega)

/-- Reindex a sum over `Finset.Icc (-r) r ⊆ ℤ` as a sum over
`Finset.range (2*r+1)`. -/
theorem sum_Icc_int {M : Type} [AddCommMonoid M] (r : Nat) (g : Int → M) :
    ∑ i ∈ Finset.Icc (-(r : Int)) (r : Int), g i =
      ∑ i ∈ Finset.range (2 * r + 1), g ((i : Int) - (r : Int)) := by
  have hmap : Finset.Icc (-(r : Int)) (r : Int) =
      (Finset.range (2 * r + 1)).map
        ⟨fun i : Nat => (i : Int) - (r : Int), fun a b hab => by
          dsimp only at hab; omega⟩ := by
    ext a
    simp only [Finset.mem_Icc, Finset.mem_map, Finset.mem_range,
      Function.Embedding.coeFn_mk]
    constructor
    · intro hr
      exact ⟨(a + (r : Int)).toNat, by omega, by omega⟩
    · rintro ⟨i, hi, rfl⟩
      omega
  rw [hmap, Finset.sum_map]
  rfl

/-- The inner loop adds the row-`mi` window sums componentwise. -/
theorem innerFold_eq (input : Nat → Nat)
    (width height channels r x y c mi : Nat) (acc : Nat × Nat) :
    innerFold input width height channels r x y c mi acc =
      (acc.1 + ∑ ni ∈ Finset.range (2 * r + 1),
        sTerm input width height channels r x y c mi ni,
       acc.2 + ∑ ni ∈ Finset.range (2 * r + 1),
        cTerm width height r x y mi ni) := by
  obtain ⟨a, b⟩ := acc
  unfold innerFold
  apply foldl_addPair
  intro acc2 ni
  dsimp only
  simp only [sTerm, cTerm]
  split_ifs with hc
  · rfl
  · simp

/-- The double window fold computes the double window sums. -/
theorem windowFold_eq_sums (input : Nat → Nat)
    (width height channels r x y c : Nat) :
    windowFold input width height channels r x y c =
      (∑ mi ∈ Finset.range (2 * r + 1), ∑ ni ∈ Finset.range (2 * r + 1),
        sTerm input width height channels r x y c mi ni,
       ∑ mi ∈ Finset.range (2 * r + 1), ∑ ni ∈ Finset.range (2 * r + 1),
        cTerm width height r x y mi ni) := by
  have h := foldl_addPair
    (fun acc mi => innerFold input width height channels r x y c mi acc)
    (fun mi => ∑ ni ∈ Finset.range (2 * r + 1),
      sTerm input width height channels r x y c mi ni)
    (fun mi => ∑ ni ∈ Finset.range (2 * r + 1),
      cTerm width height r x y mi ni)
    (fun acc mi => innerFold_eq input width height channels r x y c mi acc)
    (2 * r + 1) 0 0
  simpa [windowFold] using h

/-- Spec-side sum as a double range sum. -/
theorem specSum_eq (input : Nat → Nat) (width height channels r x y c : Nat) :
    specSum input width height channels r x y c =
      ∑ mi ∈ Finset.range (2 * r + 1), ∑ ni ∈ Finset.range (2 * r + 1),
        sTerm input width height channels r x y c mi ni := by
  unfold specSum validNbrs
  rw [Finset.sum_filter, Finset.sum_product]
  simp only [sum_Icc_int]
  refine Finset.sum_congr rfl fun mi _ => Finset.sum_congr rfl fun ni _ => ?_
  unfold sTerm
  have e1 : (x : Int) + ((ni : Int) - (r : Int)) =
      (x : Int) + (ni : Int) - (r : Int) := by ring
  have e2 : (y : Int) + ((mi : Int) - (r : Int)) =
      (y : Int) + (mi : Int) - (r : Int) := by ring
  rw [e1, e2]

/-- Spec-side count as a double range sum. -/
theorem specCount_eq (width height r x y : Nat) :
    specCount width height r x y =
      ∑ mi ∈ Finset.range (2 * r + 1), ∑ ni ∈ Finset.range (2 * r + 1),
        cTerm width height r x y mi ni := by
  unfold specCount validNbrs
  rw [Finset.card_filter, Finset.sum_product]
  simp only [sum_Icc_int]
  refine Finset.sum_congr rfl fun mi _ => Finset.sum_congr rfl fun ni _ => ?_
  unfold cTerm
  have e1 : (x : Int) + ((ni : Int) - (r : Int)) =
      (x : Int) + (ni : Int) - (r : Int) := by ring
  have e2 : (y : Int) + ((mi : Int) - (r : Int)) =
      (y : Int) + (mi : Int) - (r : Int) := by ring
  rw [e1, e2]

/-- The window fold computes exactly the spec's (sum, count) pair. -/
theorem windowFold_spec (input : Nat → Nat)
    (width height channels r x y c : Nat) :
    windowFold input width height channels r x y c =
      (specSum input width height channels r x y c,
       specCount width height r x y) := by
  rw [windowFold_eq_sums, specSum_eq, specCount_eq]

/-- The centre `(x, y)` itself is always a valid neighbour, so the count is
positive. -/
theorem specCount_pos {width height x y : Nat} (r : Nat)
    (hx : x < width) (hy : y < height) :
    0 < specCount width height r x y := by
  rw [specCount, Finset.card_pos]
  refine ⟨((0 : Int), (0 : Int)), ?_⟩
  simp only [validNbrs, Finset.mem_filter, Finset.mem_product, Finset.mem_Icc]
  omega

/-- Byte-bounded samples give a sum bounded by `255 * count`. -/
theorem specSum_le_mul {input : Nat → Nat}
    (width height channels r x y c : Nat) (hin : ∀ i, input i ≤ 255) :
    specSum input width height channels r x y c ≤
      255 * specCount width height r x y := by
  unfold specSum specCount
  calc ∑ p ∈ validNbrs width height r x y,
        input (srcIdx width channels ((x : Int) + p.2).toNat
          ((y : Int) + p.1).toNat c)
      ≤ (validNbrs width height r x y).card • 255 :=
        Finset.sum_le_card_nsmul _ _ _ fun p _ => hin _
    _ = 255 * (validNbrs width height r x y).card := by
        rw [smul_eq_mul, Nat.mul_comm]

/-- The truncated average of byte-bounded samples is again a byte. -/
theorem specAvg_le {input : Nat → Nat} {width height x y : Nat}
    (channels r c : Nat) (hx : x < width) (hy : y < height)
    (hin : ∀ i, input i ≤ 255) :
    specSum input width height channels r x y c /
      specCount width height r x y ≤ 255 := by
  have hc := specCount_pos r hx hy
  have hs := specSum_le_mul width height channels r x y c hin
  have hlt : specSum input width height channels r x y c <
      256 * specCount width height r x y := by
    have : 255 * specCount width height r x y <
        256 * specCount width height r x y :=
      (Nat.mul_lt_mul_right hc).mpr (by omega)
    omega
  have := (Nat.div_lt_iff_lt_mul hc).mpr (by omega : specSum input width
    height channels r x y c < 256 * specCount width height r x y)
  omega

/-! ## Indexing lemmas for the produced output buffers -/

/-- Length of a flatMap over `List.range n` with uniform block length `L`. -/
theorem length_flatMap_const {f : Nat → List Nat} {n L : Nat}
    (hlen : ∀ i, i < n → (f i).length = L) :
    ((List.range n).flatMap f).length = n * L := by
  induction n with
  | zero => simp
  | succ m ih =>
    rw [List.range_succ, List.flatMap_append, List.length_append,
      ih (fun i hi => hlen i (by omega))]
    simp only [List.flatMap_cons, List.flatMap_nil, List.append_nil]
    rw [hlen m (by omega), Nat.succ_mul]

/-- Indexing into a flatMap over `List.range n` with uniform block length. -/
theorem getD_flatMap_uniform {f : Nat → List Nat} {n L y j : Nat}
    (hlen : ∀ i, i < n → (f i).length = L) (hy : y < n) (hj : j < L) :
    ((List.range n).flatMap f).getD (y * L + j) 0 = (f y).getD j 0 := by
  have hsplit : List.range n = List.range y ++ List.range' y (n - y) := by
    have h := List.range'_append 0 y (n - y) 1
    simp only [Nat.zero_add, Nat.one_mul] at h
    rw [show n - y + y = n from by omega] at h
    rw [List.range_eq_range', ← h, ← List.range_eq_range']
  have hn_y : n - y = (n - y - 1) + 1 := by omega
  rw [hsplit, List.flatMap_append, hn_y, List.range'_succ, List.flatMap_cons]
  have hlen1 : ((List.range y).flatMap f).length = y * L :=
    length_flatMap_const fun i hi => hlen i (by omega)
  rw [List.getD_eq_getElem?_getD,
    List.getElem?_append_right (by rw [hlen1]; omega), hlen1,
    Nat.add_sub_cancel_left, List.getElem?_append,
    if_pos (by rw [hlen y hy]; exact hj), ← List.getD_eq_getElem?_getD]

/-- Indexing into a map over `List.range n`. -/
theorem getD_map_range {g : Nat → Nat} {n c : Nat} (hc : c < n) :
    ((List.range n).map g).getD c 0 = g c := by
  rw [List.getD_eq_getElem?_getD, List.getElem?_map, List.getElem?_range hc]
  rfl

/-- One output row (`x` then `c` loops) holds `width * 3` bytes. -/
theorem length_blur_row {g : Nat → Nat → Nat} {w : Nat} :
    ((List.range w).flatMap fun x => (List.range 3).map (g x)).length =
      w * 3 :=
  length_flatMap_const fun i _ => by simp

/-- The serial output buffer holds `height * (width * 3)` bytes. -/
theorem length_apply_box_blur_color (input : Nat → Nat)
    (width height channels kernel_size : Nat) :
    (apply_box_blur_color input width height channels kernel_size).length =
      height * (width * 3) := by
  unfold apply_box_blur_color
  exact length_flatMap_const fun i _ => length_blur_row

/-- The serial output byte at flat index `(y*width + x)*3 + c`. -/
theorem apply_box_blur_color_getD {input : Nat → Nat}
    {width height x y c : Nat} (channels kernel_size : Nat)
    (hx : x < width) (hy : y < height) (hc : c < 3) :
    (apply_box_blur_color input width height channels kernel_size).getD
        ((y * width + x) * 3 + c) 0 =
      blurByte input width height channels (kernel_size / 2) x y c := by
  unfold apply_box_blur_color
  have hidx : (y * width + x) * 3 + c = y * (width * 3) + (x * 3 + c) := by
    ring
  rw [hidx,
    getD_flatMap_uniform (fun i _ => length_blur_row) hy (by omega),
    getD_flatMap_uniform (fun i _ => by simp) hx hc]
  exact getD_map_range hc

/-! ## Claim theorems -/

/-- C1: the stencil kernel's output sample at `(x, y, c)` equals the sum of
the in-bounds input samples at channel `c` (channel 0 for single-channel
input) over the window coordinates `(x+n, y+m)` with `m, n ∈ [-radius,
radius]` that lie inside `[0,width) × [0,height)`, divided (truncating) by
the count of exactly those in-bounds coordinates — never by the full window
area. -/
theorem C1_stencil_kernel_valid_neighbor_average (input : Nat → Nat)
    (width height channels kernel_size x y c : Nat)
    (hw : 0 < width) (hh : 0 < height)
    (hch : channels = 1 ∨ channels = 3 ∨ channels = 4)
    (hx : x < width) (hy : y < height) (hc : c < 3)
    (hin : ∀ i, input i ≤ 255) :
    (apply_box_blur_color input width height channels kernel_size).getD
        ((y * width + x) * 3 + c) 0 =
      specSum input width height channels (kernel_size / 2) x y c /
        specCount width height (kernel_size / 2) x y := by
  rw [apply_box_blur_color_getD channels kernel_size hx hy hc]
  unfold blurByte
  rw [windowFold_spec]
  exact Nat.mod_eq_of_lt (Nat.lt_succ_of_le
    (specAvg_le channels (kernel_size / 2) c hx hy hin))

/-- Witness for C1 at a concrete instance. -/
theorem C1_witness :
    (0 : Nat) < 2 ∧ (0 : Nat) < 2 ∧ ((3 : Nat) = 1 ∨ (3 : Nat) = 3 ∨
      (3 : Nat) = 4) ∧ (0 : Nat) < 2 ∧ (1 : Nat) < 2 ∧
    (1 : Nat) < 3 ∧ (∀ i : Nat, i % 256 ≤ 255) ∧
    (apply_box_blur_color (fun i => i % 256) 2 2 3 3).getD
        ((1 * 2 + 0) * 3 + 1) 0 =
      specSum (fun i => i % 256) 2 2 3 (3 / 2) 0 1 1 /
        specCount 2 2 (3 / 2) 0 1 := by
  refine ⟨by omega, by omega, by omega, by omega, by omega, by omega,
    fun i => Nat.le_of_lt_succ (Nat.mod_lt i (by omega)), ?_⟩
  exact C1_stencil_kernel_valid_neighbor_average (fun i => i % 256) 2 2 3 3
    0 1 1 (by omega) (by omega) (by omega) (by omega) (by omega) (by omega)
    fun i => Nat.le_of_lt_succ (Nat.mod_lt i (by omega))

/-- C7: on the 4×4 single-channel input with samples `0..15` row-major and
kernel size 3 (radius 1), the sequential blur's output pixel at (0,0) is 2 in
all three output channels — the truncated average of the four valid
neighbours {0, 1, 4, 5}. -/
theorem C7_concrete_4x4_scenario :
    (apply_box_blur_color (fun i => i) 4 4 1 3).getD 0 0 = 2 ∧
    (apply_box_blur_color (fun i => i) 4 4 1 3).getD 1 0 = 2 ∧
    (apply_box_blur_color (fun i => i) 4 4 1 3).getD 2 0 = 2 ∧
    specSum (fun i => i) 4 4 1 1 0 0 0 = 0 + 1 + 4 + 5 ∧
    specCount 4 4 1 0 0 = 4 := by
  refine ⟨?_, ?_, ?_, ?_, ?_⟩ <;> decide

/-- C10: for every in-bounds `(x, y)` and every radius, the in-bounds
neighbour count is at least 1 (the centre always counts), so `sum / count`
never divides by zero; and with byte-bounded samples the truncated average is
again at most 255, so the narrowing `unsigned char` cast (`% 256`) preserves
the value exactly. -/
theorem C10_count_positive_cast_preserves (input : Nat → Nat)
    (width height channels r x y c : Nat)
    (hx : x < width) (hy : y < height) (hin : ∀ i, input i ≤ 255) :
    1 ≤ (windowFold input width height channels r x y c).2 ∧
    (windowFold input width height channels r x y c).1 /
      (windowFold input width height channels r x y c).2 ≤ 255 ∧
    ((windowFold input width height channels r x y c).1 /
        (windowFold input width height channels r x y c).2) % 256 =
      (windowFold input width height channels r x y c).1 /
        (windowFold input width height channels r x y c).2 := by
  rw [windowFold_spec]
  refine ⟨specCount_pos r hx hy, specAvg_le channels r c hx hy hin, ?_⟩
  exact Nat.mod_eq_of_lt (Nat.lt_succ_of_le
    (specAvg_le channels r c hx hy hin))

/-- Witness for C10 at a concrete instance. -/
theorem C10_witness :
    (0 : Nat) < 3 ∧ (1 : Nat) < 2 ∧ (∀ i : Nat, i % 200 ≤ 255) ∧
    (1 ≤ (windowFold (fun i => i % 200) 3 2 1 2 0 1 0).2 ∧
     (windowFold (fun i => i % 200) 3 2 1 2 0 1 0).1 /
       (windowFold (fun i => i % 200) 3 2 1 2 0 1 0).2 ≤ 255 ∧
     ((windowFold (fun i => i % 200) 3 2 1 2 0 1 0).1 /
         (windowFold (fun i => i % 200) 3 2 1 2 0 1 0).2) % 256 =
       (windowFold (fun i => i % 200) 3 2 1 2 0 1 0).1 /
         (windowFold (fun i => i % 200) 3 2 1 2 0 1 0).2) := by
  have hin : ∀ i : Nat, i % 200 ≤ 255 := fun i =>
    Nat.le_of_lt_succ (Nat.lt_succ_of_lt (by
      have := Nat.mod_lt i (show 0 < 200 by omega)
      omega))
  exact ⟨by omega, by omega, hin,
    C10_count_positive_cast_preserves (fun i => i % 200) 3 2 1 2 0 1 0
      (by omega) (by omega) hin⟩

/-! ## Partition lemmas (mpi_box_blur.c, rows_per_process / start_row /
end_row) -/

/-- A non-last worker's range ends at `(i+1) * rows_per_process`. -/
theorem end_row_of_lt (height size i : Nat) (hi : i + 1 < size) :
    end_row height size i = (i + 1) * rows_per_process height size := by
  unfold end_row start_row
  rw [if_neg (by omega)]
  ring

/-- The last worker's range ends at `height`. -/
theorem end_row_last (height size : Nat) :
    end_row height size (size - 1) = height := by
  unfold end_row
  rw [if_pos rfl]

/-- All `size` base blocks fit under `height`. -/
theorem size_mul_rpp_le (height size : Nat) :
    size * rows_per_process height size ≤ height := by
  unfold rows_per_process
  calc size * (height / size) = height / size * size := Nat.mul_comm _ _
    _ ≤ height := Nat.div_mul_le_self height size

/-- Every worker's range ends at or before `height`. -/
theorem end_row_le (height size i : Nat) (hi : i < size) :
    end_row height size i ≤ height := by
  by_cases hlast : i = size - 1
  · rw [hlast, end_row_last]
  · rw [end_row_of_lt height size i (by omega)]
    calc (i + 1) * rows_per_process height size
        ≤ size * rows_per_process height size :=
          Nat.mul_le_mul_right _ (by omega)
      _ ≤ height := size_mul_rpp_le height size

/-- Every worker's range is well-formed. -/
theorem start_row_le_end_row (height size i : Nat) (hi : i < size) :
    start_row height size i ≤ end_row height size i := by
  by_cases hlast : i = size - 1
  · rw [hlast, end_row_last]
    unfold start_row
    calc (size - 1) * rows_per_process height size
        ≤ size * rows_per_process height size :=
          Nat.mul_le_mul_right _ (by omega)
      _ ≤ height := size_mul_rpp_le height size
  · rw [end_row_of_lt height size i (by omega)]
    unfold start_row
    exact Nat.mul_le_mul_right _ (by omega)

/-- Earlier workers' ranges end no later than later workers' ranges start. -/
theorem partition_disjoint (height size i j : Nat) (hij : i < j)
    (hj : j < size) :
    end_row height size i ≤ start_row height size j := by
  rw [end_row_of_lt height size i (by omega)]
  unfold start_row
  exact Nat.mul_le_mul_right _ (by omega)

/-- Every row below `height` lands in some worker's range. -/
theorem partition_covers (height size r : Nat) (hs : 1 ≤ size)
    (hr : r < height) :
    ∃ i, i < size ∧ start_row height size i ≤ r ∧
      r < end_row height size i := by
  by_cases hb0 : rows_per_process height size = 0
  · refine ⟨size - 1, by omega, ?_, ?_⟩
    · unfold start_row
      rw [hb0, Nat.mul_zero]
      exact Nat.zero_le r
    · rw [end_row_last]
      exact hr
  · by_cases hq : size - 1 ≤ r / rows_per_process height size
    · refine ⟨size - 1, by omega, ?_, ?_⟩
      · unfold start_row
        calc (size - 1) * rows_per_process height size
            ≤ r / rows_per_process height size *
                rows_per_process height size :=
              Nat.mul_le_mul_right _ hq
          _ ≤ r := Nat.div_mul_le_self r _
      · rw [end_row_last]
        exact hr
    · refine ⟨r / rows_per_process height size, by omega, ?_, ?_⟩
      · unfold start_row
        exact Nat.div_mul_le_self r _
      · rw [end_row_of_lt height size _ (by omega), Nat.add_mul,
          Nat.one_mul, Nat.mul_comm]
        have h1 : rows_per_process height size *
            (r / rows_per_process height size) +
            r % rows_per_process height size = r := Nat.div_add_mod r _
        have h2 : r % rows_per_process height size <
            rows_per_process height size := Nat.mod_lt r (by omega)
        obtain ⟨t, ht⟩ : ∃ t, t = rows_per_process height size *
            (r / rows_per_process height size) := ⟨_, rfl⟩
        rw [← ht] at h1
        rw [← ht]
        omega

/-- C3: the partition formula tiles `[0, height)`: ranges are ordered,
contiguous and pairwise disjoint, their union is exactly `[0, height)`, every
non-last worker gets exactly `floor(height/worker_count)` rows, and the last
worker absorbs the remainder. -/
theorem C3_partition_tiles (height size : Nat) (hh : 1 ≤ height)
    (hs : 1 ≤ size) :
    (∀ i, i + 1 < size →
      end_row height size i = start_row height size (i + 1)) ∧
    (∀ i, i < size → start_row height size i ≤ end_row height size i) ∧
    (∀ i j, i < j → j < size →
      end_row height size i ≤ start_row height size j) ∧
    (∀ r, (∃ i, i < size ∧ start_row height size i ≤ r ∧
      r < end_row height size i) ↔ r < height) ∧
    (∀ i, i + 1 < size → end_row height size i - start_row height size i =
      rows_per_process height size) ∧
    end_row height size (size - 1) - start_row height size (size - 1) =
      height - (size - 1) * rows_per_process height size := by
  refine ⟨?_, ?_, ?_, ?_, ?_, ?_⟩
  · intro i hi
    rw [end_row_of_lt height size i hi]
    unfold start_row
    rfl
  · intro i hi
    exact start_row_le_end_row height size i hi
  · intro i j hij hj
    exact partition_disjoint height size i j hij hj
  · intro r
    constructor
    · rintro ⟨i, hi, _, hri⟩
      exact Nat.lt_of_lt_of_le hri (end_row_le height size i hi)
    · exact partition_covers height size r hs
  · intro i hi
    rw [end_row_of_lt height size i hi]
    unfold start_row
    rw [Nat.add_mul, Nat.one_mul]
    exact Nat.add_sub_cancel_left _ _
  · rw [end_row_last]
    unfold start_row
    rfl

/-- Witness for C3 at `height = 5`, `worker_count = 2`. -/
theorem C3_witness :
    (1 : Nat) ≤ 5 ∧ (1 : Nat) ≤ 2 ∧
    ((∀ i, i + 1 < 2 → end_row 5 2 i = start_row 5 2 (i + 1)) ∧
     (∀ i, i < 2 → start_row 5 2 i ≤ end_row 5 2 i) ∧
     (∀ i j, i < j → j < 2 → end_row 5 2 i ≤ start_row 5 2 j) ∧
     (∀ r, (∃ i, i < 2 ∧ start_row 5 2 i ≤ r ∧ r < end_row 5 2 i) ↔
       r < 5) ∧
     (∀ i, i + 1 < 2 → end_row 5 2 i - start_row 5 2 i =
       rows_per_process 5 2) ∧
     end_row 5 2 (2 - 1) - start_row 5 2 (2 - 1) =
       5 - (2 - 1) * rows_per_process 5 2) :=
  ⟨by omega, by omega, C3_partition_tiles 5 2 (by omega) (by omega)⟩

/-! ## Concatenation of contiguous row ranges -/

/-- Concatenating `n` consecutive blocks of `L` rows starting at `s` yields
the rows `s .. s + n*L`. -/
theorem flatMap_range'_blocks (s L n : Nat) :
    (List.range n).flatMap (fun i => List.range' (s + i * L) L) =
      List.range' s (n * L) := by
  induction n with
  | zero => simp
  | succ m ih =>
    rw [List.range_succ, List.flatMap_append, ih]
    simp only [List.flatMap_cons, List.flatMap_nil, List.append_nil]
    have h := List.range'_append s (m * L) L 1
    simp only [Nat.one_mul] at h
    rw [h]
    congr 1
    ring

/-- The partition's row ranges, concatenated in rank order, are exactly the
rows `0 .. height`. -/
theorem partition_join (height size : Nat) (hs : 1 ≤ size) :
    (List.range size).flatMap (fun r => List.range' (start_row height size r)
      (end_row height size r - start_row height size r)) =
      List.range height := by
  have hsplit : List.range size = List.range (size - 1) ++ [size - 1] := by
    conv_lhs => rw [show size = (size - 1) + 1 by omega]
    rw [List.range_succ]
  rw [hsplit, List.flatMap_append]
  have hcong : (List.range (size - 1)).flatMap
      (fun r => List.range' (start_row height size r)
        (end_row height size r - start_row height size r)) =
      (List.range (size - 1)).flatMap
        (fun i => List.range' (0 + i * rows_per_process height size)
          (rows_per_process height size)) := by
    apply List.flatMap_congr
    intro i hi
    have hi' : i < size - 1 := List.mem_range.mp hi
    rw [end_row_of_lt height size i (by omega)]
    unfold start_row
    rw [Nat.add_mul, Nat.one_mul, Nat.add_sub_cancel_left, Nat.zero_add]
  rw [hcong, flatMap_range'_blocks]
  simp only [List.flatMap_cons, List.flatMap_nil, List.append_nil]
  rw [end_row_last]
  unfold start_row
  have hle : (size - 1) * rows_per_process height size ≤ height :=
    Nat.le_trans (Nat.mul_le_mul_right _ (by omega))
      (size_mul_rpp_le height size)
  have h := List.range'_append 0 ((size - 1) * rows_per_process height size)
    (height - (size - 1) * rows_per_process height size) 1
  simp only [Nat.zero_add, Nat.one_mul] at h
  rw [h, List.range_eq_range']
  congr 1
  omega

/-- The gathered MPI partials equal the serial output, for any worker
count. -/
theorem gathered_eq_serial (input : Nat → Nat)
    (width height channels kernel_size size : Nat) (hs : 1 ≤ size) :
    gathered input width height channels kernel_size size =
      apply_box_blur_color input width height channels kernel_size := by
  unfold gathered apply_box_blur_mpi apply_box_blur_color
  conv_rhs => rw [← partition_join height size hs]
  rw [List.flatMap_assoc]

/-- Length of a flatMap over `List.range' s n` with uniform block length. -/
theorem length_flatMap_range' {f : Nat → List Nat} {L : Nat}
    (hlen : ∀ i, (f i).length = L) (s n : Nat) :
    ((List.range' s n).flatMap f).length = n * L := by
  induction n generalizing s with
  | zero => simp
  | succ m ih =>
    rw [List.range'_succ, List.flatMap_cons, List.length_append, hlen, ih]
    ring

/-- Byte size of one MPI partial result. -/
theorem length_apply_box_blur_mpi (input : Nat → Nat)
    (width height channels kernel_size srow erow : Nat) :
    (apply_box_blur_mpi input width height channels kernel_size
      srow erow).length = (erow - srow) * (width * 3) := by
  unfold apply_box_blur_mpi
  exact length_flatMap_range' (fun i => length_blur_row) srow (erow - srow)

/-- C4: replaying each worker's partial (computed over only its own rows)
into the output at byte offset `row_start * width * 3` — the displacements
and receive counts root recomputes from the same partition formula —
reconstructs exactly the sequential output; in particular a single worker
yields the sequential output verbatim. -/
theorem C4_gather_merge_refines_serial (input : Nat → Nat)
    (width height channels kernel_size size : Nat) (hs : 1 ≤ size) :
    gathered input width height channels kernel_size size =
      apply_box_blur_color input width height channels kernel_size ∧
    (∀ i, i < size →
      (apply_box_blur_mpi input width height channels kernel_size
        (start_row height size i) (end_row height size i)).length =
      recv_count width height size i) ∧
    (∀ i, i < size →
      ((List.range i).flatMap fun r =>
        apply_box_blur_mpi input width height channels kernel_size
          (start_row height size r) (end_row height size r)).length =
      displ width height size i) ∧
    (size = 1 →
      gathered input width height channels kernel_size 1 =
        apply_box_blur_color input width height channels kernel_size) := by
  refine ⟨gathered_eq_serial input width height channels kernel_size size hs,
    ?_, ?_, fun _ =>
      gathered_eq_serial input width height channels kernel_size 1
        (by omega)⟩
  · intro i hi
    rw [length_apply_box_blur_mpi]
    unfold recv_count
    ring
  · intro i hi
    rw [length_flatMap_const (f := fun r =>
      apply_box_blur_mpi input width height channels kernel_size
        (start_row height size r) (end_row height size r))
      (L := rows_per_process height size * (width * 3))
      (fun r hr => ?_)]
    · unfold displ start_row
      ring
    · rw [length_apply_box_blur_mpi, end_row_of_lt height size r (by omega)]
      unfold start_row
      rw [Nat.add_mul, Nat.one_mul, Nat.add_sub_cancel_left]

/-- Witness for C4 at a concrete instance. -/
theorem C4_witness :
    (1 : Nat) ≤ 2 ∧
    (gathered (fun i => i) 1 2 1 3 2 = apply_box_blur_color (fun i => i) 1 2 1 3 ∧
     (∀ i, i < 2 →
       (apply_box_blur_mpi (fun i => i) 1 2 1 3
         (start_row 2 2 i) (end_row 2 2 i)).length = recv_count 1 2 2 i) ∧
     (∀ i, i < 2 →
       ((List.range i).flatMap fun r =>
         apply_box_blur_mpi (fun i => i) 1 2 1 3
           (start_row 2 2 r) (end_row 2 2 r)).length = displ 1 2 2 i) ∧
     ((2 : Nat) = 1 →
       gathered (fun i => i) 1 2 1 3 1 =
         apply_box_blur_color (fun i => i) 1 2 1 3)) :=
  ⟨by omega,
    C4_gather_merge_refines_serial (fun i => i) 1 2 1 3 2 (by omega)⟩

/-- C6 counterexample: the claim locates the empty ranges at the trailing
workers.  At `height = 1`, `worker_count = 2` (a `worker_count > height`
instance) the unique trailing worker — rank 1, the last — receives the
non-empty range `[0, 1)` holding every row, while it is the leading worker
(rank 0) whose range is empty. -/
theorem C6_counterexample :
    (1 : Nat) < 2 ∧
    start_row 1 2 1 = 0 ∧ end_row 1 2 1 = 1 ∧
    start_row 1 2 0 = 0 ∧ end_row 1 2 0 = 0 := by
  refine ⟨by omega, ?_, ?_, ?_, ?_⟩ <;> decide

/-- C6 (amended): for every `worker_count > height ≥ 1` the partition formula
still succeeds — `rows_per_process` is 0, every worker except the last
(i.e. the leading workers, not trailing ones) receives the empty range
`[0, 0)` which contributes zero bytes of partial result, the last worker
receives all of `[0, height)`, and the merged output still covers
`[0, height)` exactly once, equalling the serial output. -/
theorem C6_amended_over_partitioning (input : Nat → Nat)
    (width height channels kernel_size size : Nat)
    (hh : 1 ≤ height) (hover : height < size) :
    rows_per_process height size = 0 ∧
    (∀ i, i < size - 1 → start_row height size i = 0 ∧
      end_row height size i = 0 ∧
      apply_box_blur_mpi input width height channels kernel_size
        (start_row height size i) (end_row height size i) = []) ∧
    start_row height size (size - 1) = 0 ∧
    end_row height size (size - 1) = height ∧
    gathered input width height channels kernel_size size =
      apply_box_blur_color input width height channels kernel_size := by
  have hb : rows_per_process height size = 0 := Nat.div_eq_of_lt hover
  refine ⟨hb, ?_, ?_, end_row_last height size,
    gathered_eq_serial input width height channels kernel_size size
      (by omega)⟩
  · intro i hi
    have hstart : start_row height size i = 0 := by
      unfold start_row
      rw [hb, Nat.mul_zero]
    have hend : end_row height size i = 0 := by
      unfold end_row
      rw [if_neg (by omega), hstart, hb]
    refine ⟨hstart, hend, ?_⟩
    rw [hstart, hend]
    unfold apply_box_blur_mpi
    simp
  · unfold start_row
    rw [hb, Nat.mul_zero]

/-- Witness for the amended C6 at `height = 1`, `worker_count = 2`. -/
theorem C6_witness :
    (1 : Nat) ≤ 1 ∧ (1 : Nat) < 2 ∧
    (rows_per_process 1 2 = 0 ∧
     (∀ i, i < 2 - 1 → start_row 1 2 i = 0 ∧ end_row 1 2 i = 0 ∧
       apply_box_blur_mpi (fun i => i) 1 1 1 3
         (start_row 1 2 i) (end_row 1 2 i) = []) ∧
     start_row 1 2 (2 - 1) = 0 ∧ end_row 1 2 (2 - 1) = 1 ∧
     gathered (fun i => i) 1 1 1 3 2 =
       apply_box_blur_color (fun i => i) 1 1 1 3) :=
  ⟨by omega, by omega,
    C6_amended_over_partitioning (fun i => i) 1 1 1 3 2 (by omega)
      (by omega)⟩

/-! ## Replaying disjoint device stores -/

/-- Replaying stores never changes the buffer length. -/
theorem length_applyWrites (ws : List (Nat × Nat)) :
    ∀ init : List Nat, (applyWrites init ws).length = init.length := by
  induction ws with
  | nil => intro init; rfl
  | cons whd tl ih =>
    intro init
    have hstep : applyWrites init (whd :: tl) =
        applyWrites (init.set whd.1 whd.2) tl := rfl
    rw [hstep, ih, List.length_set]

/-- A cell no store targets keeps its initial value. -/
theorem applyWrites_getD_of_not_mem (ws : List (Nat × Nat)) (i : Nat)
    (hni : i ∉ ws.map Prod.fst) :
    ∀ (init : List Nat) (d : Nat),
      (applyWrites init ws).getD i d = init.getD i d := by
  induction ws with
  | nil => intro init d; rfl
  | cons whd tl ih =>
    simp only [List.map_cons, List.mem_cons] at hni
    push_neg at hni
    intro init d
    have hstep : applyWrites init (whd :: tl) =
        applyWrites (init.set whd.1 whd.2) tl := rfl
    rw [hstep, ih hni.2, List.getD_eq_getElem?_getD,
      List.getD_eq_getElem?_getD, List.getElem?_set,
      if_neg (Ne.symm hni.1)]

/-- With pairwise distinct target indices, every store lands: the final
buffer holds the stored byte at each stored index. -/
theorem applyWrites_getD_of_mem (ws : List (Nat × Nat)) (i v : Nat)
    (hnd : (ws.map Prod.fst).Nodup) (hmem : (i, v) ∈ ws) :
    ∀ init : List Nat, i < init.length →
      (applyWrites init ws).getD i 0 = v := by
  induction ws with
  | nil => cases hmem
  | cons whd tl ih =>
    simp only [List.map_cons, List.nodup_cons] at hnd
    intro init hlen
    have hstep : applyWrites init (whd :: tl) =
        applyWrites (init.set whd.1 whd.2) tl := rfl
    rw [hstep]
    rcases List.mem_cons.mp hmem with heq | htl
    · rw [← heq] at hnd ⊢
      rw [applyWrites_getD_of_not_mem tl i hnd.1, List.getD_eq_getElem?_getD,
        List.getElem?_set, if_pos rfl, if_pos hlen]
      rfl
    · apply ih hnd.2 htl
      rw [List.length_set]
      exact hlen

/-- An in-bounds OpenCL work-item performs its three channel stores. -/
theorem box_blur_kernel_in_bounds (input : Nat → Nat)
    (width height channels kernel_size x y : Nat) (hx : x < width)
    (hy : y < height) :
    box_blur_kernel input width height channels kernel_size x y =
      (List.range 3).map fun c =>
        ((y * width + x) * 3 + c,
         blurByte input width height channels (kernel_size / 2) x y c) := by
  unfold box_blur_kernel
  rw [if_neg (by omega)]

/-- The OpenCL grid's store targets, enumerated in grid order, are exactly
the output indices `0 .. height*width*3`, each exactly once. -/
theorem opencl_keys (input : Nat → Nat)
    (width height channels kernel_size : Nat) :
    (((List.range height).flatMap fun y => (List.range width).flatMap fun x =>
        box_blur_kernel input width height channels kernel_size x y).map
      Prod.fst) = List.range (height * (width * 3)) := by
  rw [List.map_flatMap]
  have h1 : ∀ y ∈ List.range height,
      (((List.range width).flatMap fun x =>
        box_blur_kernel input width height channels kernel_size x y).map
          Prod.fst) = List.range' (0 + y * (width * 3)) (width * 3) := by
    intro y hy
    have hy' : y < height := List.mem_range.mp hy
    rw [List.map_flatMap]
    have h2 : ∀ x ∈ List.range width,
        ((box_blur_kernel input width height channels kernel_size x y).map
          Prod.fst) = List.range' (y * (width * 3) + x * 3) 3 := by
      intro x hx
      have hx' : x < width := List.mem_range.mp hx
      rw [box_blur_kernel_in_bounds input width height channels kernel_size
        x y hx' hy', List.map_map, List.range'_eq_map_range]
      apply List.map_congr_left
      intro c _
      simp only [Function.comp_apply]
      ring
    rw [List.flatMap_congr h2, flatMap_range'_blocks, Nat.zero_add]
  rw [List.flatMap_congr h1, flatMap_range'_blocks, List.range_eq_range']

/-- The OpenCL launch reproduces the serial output buffer byte for byte. -/
theorem apply_box_blur_opencl_eq (input : Nat → Nat)
    (width height channels kernel_size : Nat) :
    apply_box_blur_opencl input width height channels kernel_size =
      apply_box_blur_color input width height channels kernel_size := by
  have hlenl : (apply_box_blur_opencl input width height channels
      kernel_size).length = width * height * 3 := by
    unfold apply_box_blur_opencl
    rw [length_applyWrites, List.length_replicate]
  apply List.ext_getElem
  · rw [hlenl, length_apply_box_blur_color]
    ring
  · intro n h1 h2
    rw [← List.getD_eq_getElem _ 0 h1, ← List.getD_eq_getElem _ 0 h2]
    have hn : n < height * (width * 3) := by
      rw [hlenl] at h1
      have : width * height * 3 = height * (width * 3) := by ring
      omega
    rcases Nat.eq_zero_or_pos width with hw0 | hw
    · exfalso
      rw [hw0] at hn
      simp at hn
    have hc : n % 3 < 3 := Nat.mod_lt _ (by omega)
    have hx : n / 3 % width < width := Nat.mod_lt _ hw
    have hy : n / 3 / width < height := by
      have h3 : n / 3 < height * width := by
        rw [Nat.div_lt_iff_lt_mul (by omega : 0 < 3)]
        have : height * (width * 3) = height * width * 3 := by ring
        omega
      rw [Nat.div_lt_iff_lt_mul hw]
      exact h3
    have hdecomp : (n / 3 / width * width + n / 3 % width) * 3 + n % 3 = n := by
      have e1 : n / 3 / width * width + n / 3 % width = n / 3 := by
        have h4 := Nat.div_add_mod (n / 3) width
        rw [Nat.mul_comm] at h4
        exact h4
      have e2 : n / 3 * 3 + n % 3 = n := by
        have h5 := Nat.div_add_mod n 3
        omega
      rw [e1]
      exact e2
    have hserial : (apply_box_blur_color input width height channels
        kernel_size).getD n 0 =
        blurByte input width height channels (kernel_size / 2)
          (n / 3 % width) (n / 3 / width) (n % 3) := by
      conv_lhs => rw [← hdecomp]
      exact apply_box_blur_color_getD channels kernel_size hx hy hc
    have hmem : (n, blurByte input width height channels (kernel_size / 2)
        (n / 3 % width) (n / 3 / width) (n % 3)) ∈
        (List.range height).flatMap fun y =>
          (List.range width).flatMap fun x =>
            box_blur_kernel input width height channels kernel_size x y := by
      rw [List.mem_flatMap]
      refine ⟨n / 3 / width, List.mem_range.mpr hy, ?_⟩
      rw [List.mem_flatMap]
      refine ⟨n / 3 % width, List.mem_range.mpr hx, ?_⟩
      rw [box_blur_kernel_in_bounds input width height channels kernel_size
        _ _ hx hy, List.mem_map]
      refine ⟨n % 3, List.mem_range.mpr hc, ?_⟩
      exact Prod.ext hdecomp rfl
    have hnd : (((List.range height).flatMap fun y =>
        (List.range width).flatMap fun x =>
          box_blur_kernel input width height channels kernel_size x y).map
        Prod.fst).Nodup := by
      rw [opencl_keys]
      exact List.nodup_range _
    rw [hserial]
    unfold apply_box_blur_opencl
    apply applyWrites_getD_of_mem _ _ _ hnd hmem
    rw [List.length_replicate]
    have : width * height * 3 = height * (width * 3) := by ring
    omega

/-- The CUDA thread body performs the same stores as the OpenCL work-item. -/
theorem box_blur_kernel_cuda_eq (input : Nat → Nat)
    (width height channels kernel_size x y : Nat) :
    box_blur_kernel_cuda input width height channels kernel_size x y =
      box_blur_kernel input width height channels kernel_size x y := by
  unfold box_blur_kernel_cuda box_blur_kernel
  by_cases hxy : x < width ∧ y < height
  · rw [if_pos hxy, if_neg (by omega)]
  · rw [if_neg hxy, if_pos (by omega)]

/-- A flatMap of empty blocks is empty. -/
theorem flatMap_eq_nil_of {α β : Type} {l : List α} {f : α → List β}
    (h : ∀ a ∈ l, f a = []) : l.flatMap f = [] := by
  induction l with
  | nil => rfl
  | cons a tl ih =>
    rw [List.flatMap_cons, h a (List.mem_cons_self a tl), List.nil_append]
    exact ih fun b hb => h b (List.mem_cons_of_mem a hb)

/-- Padding an enumeration with indices whose blocks are empty changes
nothing. -/
theorem flatMap_range_pad {f : Nat → List (Nat × Nat)} {n N : Nat}
    (hnN : n ≤ N) (hnil : ∀ i, n ≤ i → f i = []) :
    (List.range N).flatMap f = (List.range n).flatMap f := by
  have hsplit : List.range N = List.range n ++ List.range' n (N - n) := by
    have h := List.range'_append 0 n (N - n) 1
    simp only [Nat.zero_add, Nat.one_mul] at h
    rw [show N - n + n = N from by omega] at h
    rw [List.range_eq_range', ← h, ← List.range_eq_range']
  rw [hsplit, List.flatMap_append, flatMap_eq_nil_of (fun a ha => hnil a
    (List.mem_range'_1.mp ha).1), List.append_nil]

/-- The ceil-rounded CUDA grid is at least as wide as the image. -/
theorem le_ceil_mul (w bd : Nat) (hbd : 0 < bd) :
    w ≤ (w + bd - 1) / bd * bd := by
  have h1 := Nat.div_add_mod (w + bd - 1) bd
  have h2 : (w + bd - 1) % bd < bd := Nat.mod_lt _ hbd
  obtain ⟨t, ht⟩ : ∃ t, t = bd * ((w + bd - 1) / bd) := ⟨_, rfl⟩
  rw [← ht] at h1
  rw [Nat.mul_comm, ← ht]
  omega

/-- The CUDA launch (over its padded grid) stores exactly what the OpenCL
launch stores, hence the same buffer. -/
theorem cuda_box_blur_eq (input : Nat → Nat)
    (width height channels kernel_size bd : Nat) (hbd : 0 < bd) :
    cuda_box_blur input width height channels kernel_size bd =
      apply_box_blur_opencl input width height channels kernel_size := by
  unfold cuda_box_blur apply_box_blur_opencl
  congr 1
  have hrows : ∀ y, (List.range ((width + bd - 1) / bd * bd)).flatMap
      (fun x => box_blur_kernel_cuda input width height channels
        kernel_size x y) =
      (List.range width).flatMap
        (fun x => box_blur_kernel_cuda input width height channels
          kernel_size x y) := by
    intro y
    apply flatMap_range_pad (le_ceil_mul width bd hbd)
    intro i hi
    unfold box_blur_kernel_cuda
    rw [if_neg (by omega)]
  calc (List.range ((height + bd - 1) / bd * bd)).flatMap
        (fun y => (List.range ((width + bd - 1) / bd * bd)).flatMap
          (fun x => box_blur_kernel_cuda input width height channels
            kernel_size x y))
      = (List.range height).flatMap
          (fun y => (List.range ((width + bd - 1) / bd * bd)).flatMap
            (fun x => box_blur_kernel_cuda input width height channels
              kernel_size x y)) := by
        apply flatMap_range_pad (le_ceil_mul height bd hbd)
        intro j hj
        apply flatMap_eq_nil_of
        intro a _
        unfold box_blur_kernel_cuda
        rw [if_neg (by omega)]
    _ = (List.range height).flatMap
          (fun y => (List.range width).flatMap
            (fun x => box_blur_kernel input width height channels
              kernel_size x y)) := by
        apply List.flatMap_congr
        intro y _
        rw [hrows y]
        apply List.flatMap_congr
        intro x _
        exact box_blur_kernel_cuda_eq input width height channels
          kernel_size x y

/-- C2: for a fixed input buffer and kernel size, the sequential, the
shared-memory (OpenMP), the distributed (MPI, run over the whole row range)
and the accelerator (OpenCL and CUDA) backends produce byte-identical output
buffers — the same in-bounds-count averaging edge policy and the same
truncating integer division everywhere. -/
theorem C2_backend_equivalence (input : Nat → Nat)
    (width height channels kernel_size bd : Nat)
    (hw : 0 < width) (hh : 0 < height)
    (hch : channels = 1 ∨ channels = 3 ∨ channels = 4) (hbd : 0 < bd) :
    apply_box_blur_openmp input width height channels kernel_size =
      apply_box_blur_color input width height channels kernel_size ∧
    apply_box_blur_mpi input width height channels kernel_size 0 height =
      apply_box_blur_color input width height channels kernel_size ∧
    apply_box_blur_opencl input width height channels kernel_size =
      apply_box_blur_color input width height channels kernel_size ∧
    cuda_box_blur input width height channels kernel_size bd =
      apply_box_blur_color input width height channels kernel_size := by
  refine ⟨rfl, ?_, apply_box_blur_opencl_eq input width height channels
    kernel_size, ?_⟩
  · unfold apply_box_blur_mpi apply_box_blur_color
    rw [Nat.sub_zero, ← List.range_eq_range']
  · rw [cuda_box_blur_eq input width height channels kernel_size bd hbd]
    exact apply_box_blur_opencl_eq input width height channels kernel_size

/-- Witness for C2 at a concrete instance. -/
theorem C2_witness :
    (0 : Nat) < 2 ∧ (0 : Nat) < 2 ∧ ((3 : Nat) = 1 ∨ (3 : Nat) = 3 ∨
      (3 : Nat) = 4) ∧ (0 : Nat) < 16 ∧
    (apply_box_blur_openmp (fun i => i) 2 2 3 5 =
      apply_box_blur_color (fun i => i) 2 2 3 5 ∧
     apply_box_blur_mpi (fun i => i) 2 2 3 5 0 2 =
      apply_box_blur_color (fun i => i) 2 2 3 5 ∧
     apply_box_blur_opencl (fun i => i) 2 2 3 5 =
      apply_box_blur_color (fun i => i) 2 2 3 5 ∧
     cuda_box_blur (fun i => i) 2 2 3 5 16 =
      apply_box_blur_color (fun i => i) 2 2 3 5) :=
  ⟨by omega, by omega, by omega, by omega,
    C2_backend_equivalence (fun i => i) 2 2 3 5 16 (by omega) (by omega)
      (by omega) (by omega)⟩

/-- A fold whose steps never touch the input component preserves it. -/
theorem foldl_preserves_input {α : Type} {f : Mem → α → Mem}
    (hf : ∀ s a, (f s a).input = s.input) (l : List α) :
    ∀ s : Mem, (l.foldl f s).input = s.input := by
  induction l with
  | nil => intro s; rfl
  | cons a tl ih =>
    intro s
    rw [List.foldl_cons, ih, hf]

/-- C5: no backend's blur computation ever mutates the input buffer: after
running the stateful serial/OpenMP loop nest or the stateful MPI worker loop
over any row range, the input component of the memory is byte-for-byte the
initial one — only the separate output buffer is written.  (The device
kernels emit `(dst_idx, byte)` stores into the output buffer only, by
construction of `box_blur_kernel` / `box_blur_kernel_cuda`.) -/
theorem C5_input_never_mutated (s : Mem)
    (width height channels kernel_size srow erow : Nat) :
    (apply_box_blur_color_st s width height channels kernel_size).input =
      s.input ∧
    (apply_box_blur_mpi_st s width height channels kernel_size
      srow erow).input = s.input := by
  constructor
  · unfold apply_box_blur_color_st
    apply foldl_preserves_input
    intro s1 y
    apply foldl_preserves_input
    intro s2 x
    apply foldl_preserves_input
    intro s3 c
    rfl
  · unfold apply_box_blur_mpi_st
    apply foldl_preserves_input
    intro s1 y
    apply foldl_preserves_input
    intro s2 x
    apply foldl_preserves_input
    intro s3 c
    rfl

/-- A fold is unchanged when the step functions agree on the list's
elements. -/
theorem foldl_congr_mem {α β : Type} {l : List α} {f g : β → α → β}
    (h : ∀ b a, a ∈ l → f b a = g b a) :
    ∀ b, l.foldl f b = l.foldl g b := by
  induction l with
  | nil => intro b; rfl
  | cons a tl ih =>
    intro b
    rw [List.foldl_cons, List.foldl_cons,
      h b a (List.mem_cons_self a tl)]
    exact ih (fun b' a' ha' => h b' a' (List.mem_cons_of_mem a ha')) _

/-- On a 4-channel buffer, a probe at output channel `c < 3` reads a source
index that is not an alpha index. -/
theorem srcIdx_four_mod (width a b c : Nat) (hc : c < 3) :
    srcIdx width 4 a b c % 4 = c := by
  unfold srcIdx
  rw [if_neg (by omega), Nat.mul_comm, Nat.mul_add_mod]
  omega

/-- The inner window loop never reads alpha bytes: two 4-channel inputs that
agree away from alpha give identical accumulators. -/
theorem innerFold_alpha (in1 in2 : Nat → Nat)
    (width height r x y c mi : Nat) (hc : c < 3)
    (hagree : ∀ i, i % 4 ≠ 3 → in1 i = in2 i) :
    ∀ acc, innerFold in1 width height 4 r x y c mi acc =
      innerFold in2 width height 4 r x y c mi acc := by
  unfold innerFold
  apply foldl_congr_mem
  intro acc2 ni _
  dsimp only
  split_ifs with hcond
  · rw [hagree _ (by rw [srcIdx_four_mod _ _ _ _ hc]; omega)]
  · rfl

/-- The window fold never reads alpha bytes. -/
theorem windowFold_alpha (in1 in2 : Nat → Nat)
    (width height r x y c : Nat) (hc : c < 3)
    (hagree : ∀ i, i % 4 ≠ 3 → in1 i = in2 i) :
    windowFold in1 width height 4 r x y c =
      windowFold in2 width height 4 r x y c := by
  unfold windowFold
  exact foldl_congr_mem (fun acc mi _ =>
    innerFold_alpha in1 in2 width height r x y c mi hc hagree acc) _

/-- C9: the blur output never depends on the alpha channel and never
produces one: two 4-channel inputs of the same dimensions agreeing on
channels 0,1,2 at every pixel (i.e. at every flat index `i` with
`i % 4 ≠ 3`) blur to identical buffers, and the output always holds exactly
`width * height * 3` samples whatever the input channel count. -/
theorem C9_alpha_ignored_output_rgb (in1 in2 : Nat → Nat)
    (width height channels kernel_size : Nat)
    (hagree : ∀ i, i % 4 ≠ 3 → in1 i = in2 i) :
    apply_box_blur_color in1 width height 4 kernel_size =
      apply_box_blur_color in2 width height 4 kernel_size ∧
    (apply_box_blur_color in1 width height channels kernel_size).length =
      width * height * 3 := by
  constructor
  · unfold apply_box_blur_color
    apply List.flatMap_congr
    intro y _
    apply List.flatMap_congr
    intro x _
    apply List.map_congr_left
    intro c hc
    unfold blurByte
    rw [windowFold_alpha in1 in2 width height _ x y c
      (List.mem_range.mp hc) hagree]
  · rw [length_apply_box_blur_color]
    ring

/-- Witness for C9: two inputs differing only at alpha indices. -/
theorem C9_witness :
    (∀ i : Nat, i % 4 ≠ 3 →
      (if i % 4 = 3 then 7 else i % 100) =
        (if i % 4 = 3 then 250 else i % 100)) ∧
    (apply_box_blur_color (fun i => if i % 4 = 3 then 7 else i % 100)
        1 1 4 3 =
      apply_box_blur_color (fun i => if i % 4 = 3 then 250 else i % 100)
        1 1 4 3 ∧
     (apply_box_blur_color (fun i => if i % 4 = 3 then 7 else i % 100)
        1 1 2 3).length = 1 * 1 * 3) := by
  have hagree : ∀ i : Nat, i % 4 ≠ 3 →
      (if i % 4 = 3 then (7 : Nat) else i % 100) =
        (if i % 4 = 3 then 250 else i % 100) := by
    intro i hi
    rw [if_neg hi, if_neg hi]
  exact ⟨hagree, C9_alpha_ignored_output_rgb _ _ 1 1 2 3 hagree⟩

end BoxBlur
